import Mathlib

/-!
Verification of the DbResourceCollection layer (src/lib/index.ts): the filter
translator `translateFilter`, the row-selection predicates built from
`{id, ...constraint}` object spreads, and the collection operations
list/get/create/update/delete, embedded shallowly as pure Lean functions.

JavaScript objects are modelled as association lists with first-match lookup;
the JS `undefined`/`null` distinction is collapsed into `Scalar.null`.
The unbounded recursion of `translateFilter` is modelled with explicit fuel:
a result of `none` marks a computation that has not terminated within the
given fuel, so a function returning `none` for every fuel value diverges.
-/

namespace CorrSeq

/-- Scalar attribute values as they appear in rows, filters and constraints. -/
inductive Scalar : Type where
  | str (s : String)
  | num (n : Int)
  | bool (b : Bool)
  | null
deriving DecidableEq, Repr

/-- JavaScript truthiness of a scalar value. -/
def truthy : Scalar → Bool
  | .str s => !(s == "")
  | .num n => !(n == 0)
  | .bool b => b
  | .null => false

/-- JS `String.prototype.toLowerCase`, applied character by character. -/
def lowerStr (s : String) : String :=
  String.mk (s.data.map Char.toLower)

/-- A stored row / an attributes object: an association list, first match wins
(JS objects have unique keys; first-match lookup models property access). -/
abbrev Row := List (String × Scalar)

/-- First-match association-list lookup (JS property access). -/
def lookupF (k : String) : List (String × α) → Option α
  | [] => none
  | (k', v) :: rest => if k' == k then some v else lookupF k rest

/-- Reading a property of a row; a missing property reads as null/undefined. -/
def rowGet (r : Row) (k : String) : Scalar :=
  (lookupF k r).getD .null

/-- The value stored under one field key of a filter object: a plain scalar,
an operator object such as `{$like: "x%"}` (association list of operator keys),
or the `Sequelize.where(Sequelize.fn('lower', Sequelize.col(col)), {$like: pat})`
node that the translator writes back into the tree. -/
inductive LeafVal : Type where
  | scalar (s : Scalar)
  | opObj (ops : List (String × Scalar))
  | sqlWhere (col : String) (pat : String)
deriving DecidableEq, Repr

/-- A filter predicate object: the `$and`/`$or` keys hold arrays of child
predicates, `$not` holds a child predicate, and the remaining keys are leaf
fields. An absent key is `none`; JS distinguishes an absent `$and` from an
empty array, and both are kept apart here. -/
inductive Pred : Type where
  | mk (andC : Option (List Pred)) (orC : Option (List Pred))
      (notC : Option Pred) (fields : List (String × LeafVal))

/-- The `$and` entry of a predicate object. -/
def Pred.getAnd : Pred → Option (List Pred)
  | .mk a _ _ _ => a

/-- The `$or` entry of a predicate object. -/
def Pred.getOr : Pred → Option (List Pred)
  | .mk _ o _ _ => o

/-- The `$not` entry of a predicate object. -/
def Pred.getNot : Pred → Option Pred
  | .mk _ _ nc _ => nc

/-- The leaf fields of a predicate object. -/
def Pred.getFields : Pred → List (String × LeafVal)
  | .mk _ _ _ fs => fs

/-- Errors thrown by the filter translator: the `filter key k query is too
complex` error for a compound operator object (the spec's InvalidFilterError),
and the TypeError raised by `value.$like.toLowerCase()` when the pattern is a
truthy non-string. -/
inductive TErr : Type where
  | invalid (key : String)
  | typeErr
deriving DecidableEq, Repr

/-- Result of a fueled computation: `none` marks fuel exhaustion (divergence),
`some (.error e)` a thrown error, `some (.ok a)` a normal return. -/
abbrev TRes (α : Type) : Type := Option (Except TErr α)

/-- Normal return. -/
def tok {α : Type} (a : α) : TRes α := some (.ok a)

/-- Thrown error. -/
def terr {α : Type} (e : TErr) : TRes α := some (.error e)

/-- Sequencing of fueled computations: divergence and errors abort, as JS
evaluation order does. -/
def tbind {α β : Type} : TRes α → (α → TRes β) → TRes β
  | none, _ => none
  | some (.error e), _ => some (.error e)
  | some (.ok a), g => g a

/-- Mapping a fueled computation over a list, left to right, aborting at the
first divergence or error (the behaviour of `Array.prototype.map` when the
callback throws). -/
def tList {α β : Type} (g : α → TRes β) : List α → TRes (List β)
  | [] => tok []
  | x :: xs => tbind (g x) fun y => tbind (tList g xs) fun ys => tok (y :: ys)

/-- Lifting a fueled computation over an optional value. -/
def topt {α β : Type} (g : α → TRes β) : Option α → TRes (Option β)
  | none => tok none
  | some x => tbind (g x) fun y => tok (some y)

/-- The body of the `for (let k in filter)` loop of `translateFilter` for one
field: a plain-object value with more than one key throws the too-complex
error; otherwise a truthy `$like` value is rewritten into
`Sequelize.where(fn('lower', col(k)), {$like: pattern.toLowerCase()})`
(throwing a TypeError when the truthy pattern is not a string); every other
value is left untouched. -/
def mapField (k : String) (v : LeafVal) : TRes (String × LeafVal) :=
  match v with
  | .opObj ops =>
    if ops.length > 1 then terr (.invalid k)
    else
      match lookupF "$like" ops with
      | some pat =>
        if truthy pat then
          match pat with
          | .str s => tok (k, .sqlWhere k (lowerStr s))
          | _ => terr .typeErr
        else tok (k, v)
      | none => tok (k, v)
  | _ => tok (k, v)

/-- Uncurried form of `mapField` for use with `tList`. -/
def mapFieldKV (kv : String × LeafVal) : TRes (String × LeafVal) :=
  mapField kv.1 kv.2

/-- The recursive core of `translateFilter` on a present filter, with fuel.
It follows the source statement by statement: rewrite the `$and` children,
rewrite the `$or` children, then — the slip in the source — recompute `$not`
by re-invoking translation on the WHOLE current filter rather than on the
`$not` child (`filter.$not = translateFilter(filter)`), then run the leaf
loop over the fields. -/
def translateP : Nat → Pred → TRes Pred
  | 0, _ => none
  | n + 1, f =>
    tbind (topt (tList (translateP n)) f.getAnd) fun a' =>
    tbind (topt (tList (translateP n)) f.getOr) fun o' =>
    tbind (match f.getNot with
           | none => tok none
           | some _ =>
             tbind (translateP n (.mk a' o' f.getNot f.getFields)) fun x =>
               tok (some x)) fun n' =>
    tbind (tList mapFieldKV f.getFields) fun fs' =>
    tok (.mk a' o' n' fs')

/-- Conjunction node `{$and: [p, q]}` as built by `translateFilter` when a
constraint accompanies a filter. -/
def andPred (p q : Pred) : Pred :=
  .mk (some [p, q]) none none []

/-- The exported `translateFilter(filter, extra)`: an absent filter returns
the extra constraint verbatim (so both absent returns nothing); otherwise the
filter is rewritten and, when the extra constraint is present, the result is
`{$and: [rewrittenFilter, extra]}`. -/
def translateFilter (fuel : Nat) (filter extra : Option Pred) : TRes (Option Pred) :=
  match filter with
  | none => tok extra
  | some f =>
    tbind (translateP fuel f) fun f' =>
      match extra with
      | some e => tok (some (andPred f' e))
      | none => tok (some f')

/-- SQL LIKE matching over character lists: `%` matches any sequence, `_` any
single character, any other pattern character matches itself. -/
def likeChars : List Char → List Char → Bool
  | s, [] => s.isEmpty
  | s, '%' :: ps =>
    likeChars s ps ||
      (match s with
       | [] => false
       | _ :: s' => likeChars s' ('%' :: ps))
  | [], '_' :: _ => false
  | _ :: s', '_' :: ps => likeChars s' ps
  | [], _ :: _ => false
  | c :: s', p :: ps => (c == p) && likeChars s' ps
termination_by s p => (p.length, s.length)

/-- SQL LIKE matching on strings. -/
def sqlLike (s pat : String) : Bool :=
  likeChars s.data pat.data

/-- Engine semantics of one operator applied to a row field. The `$like`
operator is read with its intended case-insensitive meaning (the translator
exists to realise it on a case-sensitive engine); the comparison operators
have their usual meaning and an unknown operator matches nothing. -/
def opSem (r : Row) (k : String) (op : String) (v : Scalar) : Bool :=
  if op == "$like" then
    match rowGet r k, v with
    | .str s, .str p => sqlLike (lowerStr s) (lowerStr p)
    | _, _ => false
  else if op == "$eq" then rowGet r k == v
  else if op == "$ne" then !(rowGet r k == v)
  else if op == "$gt" then
    match rowGet r k, v with
    | .num a, .num b => b < a
    | _, _ => false
  else if op == "$lt" then
    match rowGet r k, v with
    | .num a, .num b => a < b
    | _, _ => false
  else false

/-- Satisfaction of one leaf entry of a where-object by a row: a scalar value
is an equality test, an operator object is the conjunction of its operators,
and the rewritten node `where(fn('lower', col(c)), {$like: p})` compares the
lower-cased column against the (already lower-cased) pattern. -/
def leafSat (r : Row) (k : String) : LeafVal → Bool
  | .scalar v => rowGet r k == v
  | .opObj ops => ops.all fun kv => opSem r k kv.1 kv.2
  | .sqlWhere c p =>
    match rowGet r c with
    | .str s => sqlLike (lowerStr s) p
    | _ => false

mutual

/-- Satisfaction of a predicate object by a row: all keys of the object must
hold — every `$and` child, at least one `$or` child, the negation of the
`$not` child, and every leaf field. -/
def sats (r : Row) : Pred → Bool
  | .mk a o nc fs =>
    satsAndO r a && satsOrO r o && satsNotO r nc &&
      fs.all fun kv => leafSat r kv.1 kv.2

/-- Satisfaction of an optional `$and` entry: absent holds vacuously. -/
def satsAndO (r : Row) : Option (List Pred) → Bool
  | none => true
  | some l => satsAll r l

/-- All predicates of a list hold. -/
def satsAll (r : Row) : List Pred → Bool
  | [] => true
  | p :: ps => sats r p && satsAll r ps

/-- Satisfaction of an optional `$or` entry: absent holds vacuously. -/
def satsOrO (r : Row) : Option (List Pred) → Bool
  | none => true
  | some l => satsAny r l

/-- Some predicate of a list holds. -/
def satsAny (r : Row) : List Pred → Bool
  | [] => false
  | p :: ps => sats r p || satsAny r ps

/-- Satisfaction of an optional `$not` entry: absent holds vacuously. -/
def satsNotO (r : Row) : Option Pred → Bool
  | none => true
  | some p => !(sats r p)

end

/-- Satisfaction of an optional predicate: an absent where-clause selects
every row. -/
def satsO (r : Row) : Option Pred → Bool
  | none => true
  | some p => sats r p

/-- A constraint map: field name to scalar value, as used by the get, update
and delete operations and by the create/update constraint pre-check. -/
abbrev CMap := List (String × Scalar)

/-- A row satisfies every field of a constraint map point-wise. -/
def satisfiesCMap (r : Row) (c : CMap) : Bool :=
  c.all fun kv => rowGet r kv.1 == kv.2

/-- The row-selection predicate denoted by the object `{id, ...constraint}`
built in get, update and delete: the object spread lets a constraint key
named `id` overwrite the id argument, so the `id` entry of the merged object
is the constraint's value when present and the id argument otherwise, and the
remaining entries are the constraint's fields. -/
def rowMatchesWhere (idv : Scalar) (c : CMap) (r : Row) : Bool :=
  (match lookupF "id" c with
   | some v => rowGet r "id" == v
   | none => rowGet r "id" == idv) && satisfiesCMap r c

/-- Modelled from the spec: the external `filtr(constraints).test(attributes,
{type: 'single'})` call, "a predicate match (point-wise equality/operator
test against a single record)", restricted to the scalar-valued constraint
maps used here: every constraint field must be present in the attributes with
an equal value. -/
def filtrTest (attrs : Row) (c : CMap) : Bool :=
  c.all fun kv => lookupF kv.1 attrs == some kv.2

/-- JS string conversion of a scalar, for URL concatenation and template
substitution. -/
def scalarToString : Scalar → String
  | .str s => s
  | .num n => toString n
  | .bool b => if b then "true" else "false"
  | .null => "null"

/-- Splits a character list at the first `%>` close marker, returning the
characters before it and the rest after it; `none` when no close marker
exists. -/
def splitClose : List Char → Option (List Char × List Char)
  | [] => none
  | '%' :: '>' :: rest => some ([], rest)
  | c :: rest => (splitClose rest).map fun ab => (c :: ab.1, ab.2)

/-- Modelled from the spec: the `<%=name%>`-style template interpolation that
the resource layer applies to self-link templates — each `<%=name%>`
occurrence is replaced by the string form of the named attribute; text with
no complete `<%= ... %>` pair is left verbatim. The fuel argument only bounds
the recursion depth; `renderTemplate` supplies fuel at least the template
length, which every interpolation step stays under since each step consumes
at least one character. -/
def renderAux (attrs : Row) : Nat → List Char → List Char
  | 0, cs => cs
  | fuel + 1, cs =>
    match cs with
    | [] => []
    | '<' :: '%' :: '=' :: rest =>
      match splitClose rest with
      | some (nm, rest') =>
        (scalarToString (rowGet attrs (String.mk nm))).data ++
          renderAux attrs fuel rest'
      | none => '<' :: '%' :: '=' :: rest
    | c :: rest => c :: renderAux attrs fuel rest

/-- Modelled from the spec: template interpolation on strings. -/
def renderTemplate (attrs : Row) (template : String) : String :=
  String.mk (renderAux attrs (template.length + 1) template.data)

/-- A resource as handed back to the caller: its rendered self-link and its
attribute snapshot. Modelled from the spec: the corrieneuch `Resource`
constructor derives the self-link by substituting entity fields into the
`<%=id%>`-style URL template it is given. -/
structure Resource : Type where
  selfLink : String
  attrs : Row
deriving DecidableEq, Repr

/-- Construction of a resource from a self-link template and an attribute
snapshot. -/
def mkResource (template : String) (attrs : Row) : Resource :=
  ⟨renderTemplate attrs template, attrs⟩

/-- The get operation: `findOne({where: {id, ...constraint}})` on the stored
rows, taking the first matching row; a missing row returns the not-found
sentinel `none`, a found row is wrapped as a resource with self-link
`url + '/' + id`. The sparse-fieldset projection and relationship includes do
not affect which row is selected and are modelled separately by
`buildAttributes`. -/
def getOp (url : String) (idv : Scalar) (constraints : Option CMap)
    (db : List Row) : Option Resource :=
  (db.find? (rowMatchesWhere idv (constraints.getD []))).map fun r =>
    mkResource (url ++ "/" ++ scalarToString idv) r

/-- The insert half of create: `model.create({...payload.attributes})` with
the engine assigning the new identifier, then
`new Resource(url + '/<%=id>', entity.get())` — the template literal in the
source reads `'<%=id>'`, with no `%` before the `>`. -/
def createInsert (url : String) (payload : Row) (db : List Row)
    (newId : Int) : Except String (List Row × Resource) :=
  let row := payload ++ [("id", Scalar.num newId)]
  .ok (db ++ [row], mkResource (url ++ "/<%=id>") row)

/-- The create operation: when constraints are given, the payload attributes
are tested against them first and a failure throws `constraint violation`
before any insert; otherwise the row is inserted. -/
def createOp (url : String) (payload : Row) (constraints : Option CMap)
    (db : List Row) (newId : Int) : Except String (List Row × Resource) :=
  match constraints with
  | some c =>
    if filtrTest payload c then createInsert url payload db newId
    else .error "constraint violation"
  | none => createInsert url payload db newId

/-- The update half of update: `model.update(payload.attributes,
{where: {id, ...constraints}, returning: true})` — every row matching the
merged where-object has the payload attributes written over it; zero matched
rows return the not-found sentinel, otherwise the first updated row is
wrapped as a resource with the plain url as self-link. -/
def updateRows (url : String) (idv : Scalar) (constraints : Option CMap)
    (payload : Row) (db : List Row) : Except String (List Row × Option Resource) :=
  let c := constraints.getD []
  let matched := db.filter (rowMatchesWhere idv c)
  let db' := db.map fun r => if rowMatchesWhere idv c r then payload ++ r else r
  match matched with
  | [] => .ok (db', none)
  | r0 :: _ => .ok (db', some (mkResource url (payload ++ r0)))

/-- The update operation: when constraints are given, the payload attributes
are tested against them first and a failure throws `constraint violation`
before the storage update is issued. -/
def updateOp (url : String) (idv : Scalar) (payload : Row)
    (constraints : Option CMap) (db : List Row) :
    Except String (List Row × Option Resource) :=
  match constraints with
  | some c =>
    if filtrTest payload c then updateRows url idv (some c) payload db
    else .error "constraint violation"
  | none => updateRows url idv none payload db

/-- The delete operation: `model.destroy({where: {id, ...filter}})` — the
count of matching rows is returned and the matching rows are removed. -/
def deleteOp (idv : Scalar) (constraints : Option CMap) (db : List Row) :
    Nat × List Row :=
  let c := constraints.getD []
  ((db.filter (rowMatchesWhere idv c)).length,
   db.filter fun r => !(rowMatchesWhere idv c r))

/-- The sparse-fieldset projection built identically in list and get:
`attributes = options.fieldsFor('$self')` is dropped from the query when
absent (no projection), and when present `'id'` is pushed onto it unless
already there. -/
def buildAttributes : Option (List String) → Option (List String)
  | none => none
  | some p => if p.contains "id" then some p else some (p ++ ["id"])

/-- A leaf value that the translator's compound check rejects: a plain object
with more than one key. -/
def hasCompoundL : LeafVal → Bool
  | .opObj ops => ops.length > 1
  | _ => false

mutual

/-- A filter contains, anywhere in its tree, a leaf whose operator object has
more than one key. -/
def hasCompound : Pred → Bool
  | .mk a o nc fs =>
    hcO a || hcO o || hcNot nc || fs.any fun kv => hasCompoundL kv.2

/-- Compound leaf somewhere under an optional child list. -/
def hcO : Option (List Pred) → Bool
  | none => false
  | some l => hcList l

/-- Compound leaf somewhere under a child list. -/
def hcList : List Pred → Bool
  | [] => false
  | p :: ps => hasCompound p || hcList ps

/-- Compound leaf somewhere under an optional child predicate. -/
def hcNot : Option Pred → Bool
  | none => false
  | some p => hasCompound p

end

mutual

/-- A filter containing no `$not` key anywhere in its tree. -/
def noNot : Pred → Bool
  | .mk a o nc _ => nnO a && nnO o && nc.isNone

/-- No `$not` key under an optional child list. -/
def nnO : Option (List Pred) → Bool
  | none => true
  | some l => nnList l

/-- No `$not` key under a child list. -/
def nnList : List Pred → Bool
  | [] => true
  | p :: ps => noNot p && nnList ps

end

/-- A leaf value on which the translator's `$like` rewrite cannot raise a
TypeError: if the operator object carries a truthy `$like` entry, that entry
is a string. -/
def wtLeaf : LeafVal → Bool
  | .opObj ops =>
    match lookupF "$like" ops with
    | some pat =>
      !(truthy pat) || (match pat with | .str _ => true | _ => false)
    | none => true
  | _ => true

mutual

/-- Every leaf of the filter tree satisfies `wtLeaf`. -/
def wellTyped : Pred → Bool
  | .mk a o nc fs =>
    wtO a && wtO o && wtNot nc && fs.all fun kv => wtLeaf kv.2

/-- Well-typed leaves under an optional child list. -/
def wtO : Option (List Pred) → Bool
  | none => true
  | some l => wtList l

/-- Well-typed leaves under a child list. -/
def wtList : List Pred → Bool
  | [] => true
  | p :: ps => wellTyped p && wtList ps

/-- Well-typed leaves under an optional child predicate. -/
def wtNot : Option Pred → Bool
  | none => true
  | some p => wellTyped p

end

mutual

/-- Nesting size of a filter tree, used to compute sufficient fuel for the
translator: one per predicate node plus the sizes of all child predicates. -/
def psize : Pred → Nat
  | .mk a o nc _ => 1 + psizeO a + psizeO o + psizeNot nc

/-- Size of an optional child list. -/
def psizeO : Option (List Pred) → Nat
  | none => 0
  | some l => psizeL l

/-- Size of a child list. -/
def psizeL : List Pred → Nat
  | [] => 0
  | p :: ps => psize p + psizeL ps

/-- Size of an optional child predicate. -/
def psizeNot : Option Pred → Nat
  | none => 0
  | some p => psize p

end

/-- Whether a translator result is the thrown too-complex error (the spec's
InvalidFilterError). -/
def isInvalidRes : TRes Pred → Bool
  | some (.error (.invalid _)) => true
  | _ => false

/-- A filter on which the translator diverges: every fuel bound is exhausted
before it returns, i.e. the recursion in the source never terminates. -/
def divergesOn (f : Pred) : Prop :=
  ∀ n, translateP n f = (none : TRes Pred)

/-- A filter whose only keys are scalar leaf fields. -/
def scalarFieldsOnly : Pred → Bool
  | .mk a o nc fs =>
    a.isNone && o.isNone && nc.isNone &&
      fs.all fun kv => match kv.2 with | .scalar _ => true | _ => false

/-- Concrete filter `{$not: {name: "x"}}`. -/
def notFilter : Pred :=
  .mk none none (some (.mk none none none [("name", .scalar (.str "x"))])) []

/-- Concrete filter `{$not: {a: 1}, b: {$x: 1, $y: 2}}`: it contains a
compound leaf, and it contains a `$not` key. -/
def c6pred : Pred :=
  .mk none none (some (.mk none none none [("a", .scalar (.num 1))]))
    [("b", .opObj [("$x", .num 1), ("$y", .num 2)])]

/-- Concrete filter `{name: {$like: ""}}` whose `$like` pattern is the empty
string (falsy in JS). -/
def c9pred : Pred :=
  .mk none none none [("name", .opObj [("$like", .str "")])]

/-- Concrete filter `{a: 5}` with a single scalar leaf. -/
def c10pred : Pred :=
  .mk none none none [("a", .scalar (.num 5))]

/-- Concrete filter `{name: {$like: "Wil%"}}`. -/
def w1Filter : Pred :=
  .mk none none none [("name", .opObj [("$like", .str "Wil%")])]

/-- Concrete constraint `{groupId: 2}` as a predicate object. -/
def w1Constraint : Pred :=
  .mk none none none [("groupId", .scalar (.num 2))]

/-- Concrete row in group 2 named Wilma. -/
def w1Row : Row :=
  [("id", Scalar.num 1), ("name", Scalar.str "Wilma"), ("groupId", Scalar.num 2)]

/-- Concrete stored row with identifier 2. -/
def c2row : Row := [("id", Scalar.num 2), ("name", Scalar.str "wilma")]

/-- Concrete two-row table with identifiers 1 and 2, both in group 1. -/
def c5db : List Row :=
  [[("id", Scalar.num 1), ("groupId", Scalar.num 1)],
   [("id", Scalar.num 2), ("groupId", Scalar.num 1)]]

/-! Characterisations of the fueled-computation combinators. -/

theorem tbind_tok_iff {α β : Type} {m : TRes α} {g : α → TRes β} {b : β} :
    tbind m g = tok b ↔ ∃ a, m = tok a ∧ g a = tok b := by
  cases m with
  | none => simp [tbind, tok]
  | some e =>
    cases e with
    | error e => simp [tbind, tok]
    | ok a => simp [tbind, tok]

theorem tList_tok_iff {α β : Type} {g : α → TRes β} :
    ∀ {xs : List α} {ys : List β},
      tList g xs = tok ys ↔ List.Forall₂ (fun x y => g x = tok y) xs ys := by
  intro xs
  induction xs with
  | nil =>
    intro ys
    constructor
    · intro h
      simp [tList, tok] at h
      subst h
      exact .nil
    · intro h
      cases h
      rfl
  | cons x xs ih =>
    intro ys
    constructor
    · intro h
      simp only [tList] at h
      obtain ⟨y, hy, h⟩ := tbind_tok_iff.mp h
      obtain ⟨ys', hys, h⟩ := tbind_tok_iff.mp h
      simp [tok] at h
      subst h
      exact .cons hy (ih.mp hys)
    · intro h
      cases h with
      | cons hy hys =>
        simp only [tList]
        rw [hy]
        simp only [tbind, tok]
        rw [ih.mpr hys]
        rfl

theorem topt_tok_iff {α β : Type} {g : α → TRes β} {oa : Option α} {ob : Option β} :
    topt g oa = tok ob ↔
      (oa = none ∧ ob = none) ∨ ∃ a b, oa = some a ∧ ob = some b ∧ g a = tok b := by
  cases oa with
  | none => simp [topt, tok, eq_comm]
  | some a =>
    simp only [topt]
    constructor
    · intro h
      obtain ⟨b, hb, h⟩ := tbind_tok_iff.mp h
      simp [tok] at h
      exact .inr ⟨a, b, rfl, h ▸ rfl, hb⟩
    · rintro (⟨h, -⟩ | ⟨a', b, ha, hb, hg⟩)
      · cases h
      · cases ha
        rw [hg]
        simp [tbind, tok, hb]

/-! The translator never completes on a filter carrying a `$not` key: the
source re-invokes itself on the whole filter, so every recursive level keeps
the `$not` key and recursion never bottoms out. -/

theorem translateP_not_no_tok :
    ∀ (n : Nat) (f : Pred), f.getNot.isSome → ∀ f', translateP n f ≠ tok f' := by
  intro n
  induction n with
  | zero => intro f _ f' h; simp [translateP, tok] at h
  | succ n ih =>
    intro f hn f' h
    obtain ⟨a, o, nc, fs⟩ := f
    cases nc with
    | none => simp [Pred.getNot] at hn
    | some q =>
      simp only [translateP, Pred.getAnd, Pred.getOr, Pred.getNot, Pred.getFields] at h
      obtain ⟨a', ha, h⟩ := tbind_tok_iff.mp h
      obtain ⟨o', ho, h⟩ := tbind_tok_iff.mp h
      obtain ⟨n', hn', h⟩ := tbind_tok_iff.mp h
      obtain ⟨x, hx, -⟩ := tbind_tok_iff.mp hn'
      exact ih (.mk a' o' (some q) fs) (by simp [Pred.getNot]) x hx

theorem tbind_none_iff {α β : Type} {m : TRes α} {g : α → TRes β} :
    tbind m g = none ↔ m = none ∨ ∃ a, m = tok a ∧ g a = none := by
  cases m with
  | none => simp [tbind]
  | some e =>
    cases e with
    | error e => simp [tbind, tok]
    | ok a => simp [tbind, tok]

theorem tbind_terr_iff {α β : Type} {m : TRes α} {g : α → TRes β} {e : TErr} :
    tbind m g = terr e ↔ m = terr e ∨ ∃ a, m = tok a ∧ g a = terr e := by
  cases m with
  | none => simp [tbind, terr, tok]
  | some x =>
    cases x with
    | error e' => simp [tbind, tok, terr]
    | ok a => simp [tbind, tok, terr]

theorem tList_terr {α β : Type} {g : α → TRes β} :
    ∀ {xs : List α} {e : TErr}, tList g xs = terr e → ∃ x ∈ xs, g x = terr e := by
  intro xs
  induction xs with
  | nil => intro e h; simp [tList, tok, terr] at h
  | cons x xs ih =>
    intro e h
    simp only [tList] at h
    rcases tbind_terr_iff.mp h with h1 | ⟨y, hy, h2⟩
    · exact ⟨x, by simp, h1⟩
    · rcases tbind_terr_iff.mp h2 with h3 | ⟨ys, hys, h4⟩
      · obtain ⟨x', hx', hgx⟩ := ih h3
        exact ⟨x', by simp [hx'], hgx⟩
      · simp [tok, terr] at h4

theorem topt_terr {α β : Type} {g : α → TRes β} {oa : Option α} {e : TErr}
    (h : topt g oa = terr e) : ∃ x, oa = some x ∧ g x = terr e := by
  cases oa with
  | none => simp [topt, tok, terr] at h
  | some a =>
    simp only [topt] at h
    rcases tbind_terr_iff.mp h with h1 | ⟨y, hy, h2⟩
    · exact ⟨a, rfl, h1⟩
    · simp [tok, terr] at h2

theorem tList_ne_none {α β : Type} {g : α → TRes β} :
    ∀ {xs : List α}, (∀ x ∈ xs, g x ≠ none) → tList g xs ≠ none := by
  intro xs
  induction xs with
  | nil => intro _ h; simp [tList, tok] at h
  | cons x xs ih =>
    intro hx h
    simp only [tList] at h
    rcases tbind_none_iff.mp h with h1 | ⟨y, hy, h2⟩
    · exact hx x (by simp) h1
    · rcases tbind_none_iff.mp h2 with h3 | ⟨ys, hys, h4⟩
      · exact ih (fun z hz => hx z (by simp [hz])) h3
      · simp [tok] at h4

theorem topt_ne_none {α β : Type} {g : α → TRes β} {oa : Option α}
    (h : ∀ x, oa = some x → g x ≠ none) : topt g oa ≠ none := by
  cases oa with
  | none => simp [topt, tok]
  | some a =>
    intro hc
    simp only [topt] at hc
    rcases tbind_none_iff.mp hc with h1 | ⟨y, hy, h2⟩
    · exact h a rfl h1
    · simp [tok] at h2

theorem mapField_ne_none {k : String} {v : LeafVal} : mapField k v ≠ none := by
  intro h
  cases v with
  | scalar s => simp [mapField, tok] at h
  | sqlWhere c p => simp [mapField, tok] at h
  | opObj ops =>
    simp only [mapField] at h
    split at h
    · simp [terr] at h
    · split at h
      · split at h
        · split at h
          · simp [tok] at h
          · simp [terr] at h
        · simp [tok] at h
      · simp [tok] at h

theorem mapField_terr_invalid {k k0 : String} {v : LeafVal}
    (h : mapField k v = terr (.invalid k0)) : hasCompoundL v = true := by
  cases v with
  | scalar s => simp [mapField, tok, terr] at h
  | sqlWhere c p => simp [mapField, tok, terr] at h
  | opObj ops =>
    simp only [mapField] at h
    split at h
    · next hlen => simp [hasCompoundL, hlen]
    · split at h
      · split at h
        · split at h
          · simp [tok, terr] at h
          · simp [terr] at h
        · simp [tok, terr] at h
      · simp [tok, terr] at h

theorem mapField_terr_wt {k : String} {v : LeafVal} {e : TErr}
    (hw : wtLeaf v = true) (h : mapField k v = terr e) : ∃ k0, e = .invalid k0 := by
  cases v with
  | scalar s => simp [mapField, tok, terr] at h
  | sqlWhere c p => simp [mapField, tok, terr] at h
  | opObj ops =>
    simp only [mapField] at h
    split at h
    · simp only [terr, Option.some.injEq, Except.error.injEq] at h
      exact ⟨k, h.symm⟩
    · split at h
      · next pat hl =>
        split at h
        · next htr =>
          split at h
          · simp [tok, terr] at h
          · next hnstr =>
            exfalso
            simp only [wtLeaf, hl, htr, Bool.not_true, Bool.false_or] at hw
            cases pat with
            | str s => exact hnstr s rfl
            | num n => simp at hw
            | bool b => simp at hw
            | null => simp at hw
        · simp [tok, terr] at h
      · simp [tok, terr] at h

theorem mapField_tok_wt {k k' : String} {v v' : LeafVal}
    (h : mapField k v = tok (k', v')) : wtLeaf v' = true := by
  cases v with
  | scalar s =>
    simp [mapField, tok] at h
    rw [← h.2]
    rfl
  | sqlWhere c p =>
    simp [mapField, tok] at h
    rw [← h.2]
    rfl
  | opObj ops =>
    simp only [mapField] at h
    split at h
    · simp [terr, tok] at h
    · split at h
      · next pat hl =>
        split at h
        · split at h
          · simp only [tok, Option.some.injEq, Except.ok.injEq, Prod.mk.injEq] at h
            rw [← h.2]
            rfl
          · simp [terr, tok] at h
        · next htr =>
          simp only [tok, Option.some.injEq, Except.ok.injEq, Prod.mk.injEq] at h
          rw [← h.2]
          simp [wtLeaf, hl, htr]
      · next hl =>
        simp only [tok, Option.some.injEq, Except.ok.injEq, Prod.mk.injEq] at h
        rw [← h.2]
        simp [wtLeaf, hl]

theorem mapField_tok_noCompound {k k' : String} {v v' : LeafVal}
    (h : mapField k v = tok (k', v')) : hasCompoundL v' = false := by
  cases v with
  | scalar s =>
    simp [mapField, tok] at h
    rw [← h.2]
    rfl
  | sqlWhere c p =>
    simp [mapField, tok] at h
    rw [← h.2]
    rfl
  | opObj ops =>
    simp only [mapField] at h
    split at h
    · simp [terr, tok] at h
    · next hlen =>
      split at h
      · split at h
        · split at h
          · simp only [tok, Option.some.injEq, Except.ok.injEq, Prod.mk.injEq] at h
            rw [← h.2]
            rfl
          · simp [terr, tok] at h
        · simp only [tok, Option.some.injEq, Except.ok.injEq, Prod.mk.injEq] at h
          rw [← h.2]
          simp [hasCompoundL]
          omega
      · simp only [tok, Option.some.injEq, Except.ok.injEq, Prod.mk.injEq] at h
        rw [← h.2]
        simp [hasCompoundL]
        omega

theorem mapField_compound_no_tok {k : String} {v : LeafVal}
    (hc : hasCompoundL v = true) {y : String × LeafVal} :
    mapField k v ≠ tok y := by
  intro h
  cases v with
  | scalar s => simp [hasCompoundL] at hc
  | sqlWhere c p => simp [hasCompoundL] at hc
  | opObj ops =>
    simp only [hasCompoundL, decide_eq_true_eq] at hc
    simp only [mapField, if_pos hc] at h
    simp [terr, tok] at h

/-! Semantic preservation of the leaf rewrite and of the whole translation. -/

theorem lookupF_singleton {ops : List (String × Scalar)} {pat : Scalar}
    (hlen : ¬ ops.length > 1) (hl : lookupF "$like" ops = some pat) :
    ops = [("$like", pat)] := by
  match ops with
  | [] => simp [lookupF] at hl
  | [(k0, v0)] =>
    simp only [lookupF] at hl
    split at hl
    · next hk =>
      simp at hl
      have : k0 = "$like" := by
        have := hk
        simpa [beq_iff_eq] using this
      simp [this, hl]
    · simp at hl
  | a :: b :: t => simp at hlen

theorem mapField_sat {k k' : String} {v v' : LeafVal}
    (h : mapField k v = tok (k', v')) :
    k' = k ∧ ∀ r, leafSat r k v' = leafSat r k v := by
  cases v with
  | scalar s =>
    simp [mapField, tok] at h
    exact ⟨h.1.symm, fun r => by rw [h.2]⟩
  | sqlWhere c p =>
    simp [mapField, tok] at h
    exact ⟨h.1.symm, fun r => by rw [h.2]⟩
  | opObj ops =>
    simp only [mapField] at h
    split at h
    · simp [terr, tok] at h
    · rename_i hlen
      split at h
      · rename_i pat hl
        split at h
        · split at h
          · rename_i htr s hs
            simp [tok] at h
            obtain ⟨hk, hv⟩ := h
            have hops : ops = [("$like", .str s)] := lookupF_singleton hlen hl
            refine ⟨hk.symm, fun r => ?_⟩
            rw [← hv, hops]
            cases hr : rowGet r k <;>
              simp [leafSat, opSem, hr]
          · simp [terr, tok] at h
        · simp [tok] at h
          exact ⟨h.1.symm, fun r => by rw [h.2]⟩
      · simp [tok] at h
        exact ⟨h.1.symm, fun r => by rw [h.2]⟩

theorem satsAll_congr {r : Row} {l l' : List Pred}
    (h : List.Forall₂ (fun x y => sats r y = sats r x) l l') :
    satsAll r l' = satsAll r l := by
  induction h with
  | nil => rfl
  | cons h1 _ ih => simp [satsAll, h1, ih]

theorem satsAny_congr {r : Row} {l l' : List Pred}
    (h : List.Forall₂ (fun x y => sats r y = sats r x) l l') :
    satsAny r l' = satsAny r l := by
  induction h with
  | nil => rfl
  | cons h1 _ ih => simp [satsAny, h1, ih]

theorem fieldsAll_congr {r : Row} {fs fs' : List (String × LeafVal)}
    (h : List.Forall₂
      (fun kv kv' => kv'.1 = kv.1 ∧ ∀ r, leafSat r kv.1 kv'.2 = leafSat r kv.1 kv.2)
      fs fs') :
    (fs'.all fun kv => leafSat r kv.1 kv.2) = (fs.all fun kv => leafSat r kv.1 kv.2) := by
  induction h with
  | nil => rfl
  | @cons kv kv' _ _ h1 _ ih =>
    obtain ⟨hk, hv⟩ := h1
    simp [List.all, hk, hv r, ih]

theorem satsAndO_congr {r : Row} {oa oa' : Option (List Pred)}
    (n : Nat)
    (ih : ∀ f f', translateP n f = tok f' → ∀ r, sats r f' = sats r f)
    (h : topt (tList (translateP n)) oa = tok oa') :
    satsAndO r oa' = satsAndO r oa := by
  rcases topt_tok_iff.mp h with ⟨h1, h2⟩ | ⟨l, l', h1, h2, h3⟩
  · rw [h1, h2]
  · rw [h1, h2]
    simp only [satsAndO]
    exact satsAll_congr ((tList_tok_iff.mp h3).imp fun x y hx => ih x y hx r)

theorem satsOrO_congr {r : Row} {oa oa' : Option (List Pred)}
    (n : Nat)
    (ih : ∀ f f', translateP n f = tok f' → ∀ r, sats r f' = sats r f)
    (h : topt (tList (translateP n)) oa = tok oa') :
    satsOrO r oa' = satsOrO r oa := by
  rcases topt_tok_iff.mp h with ⟨h1, h2⟩ | ⟨l, l', h1, h2, h3⟩
  · rw [h1, h2]
  · rw [h1, h2]
    simp only [satsOrO]
    exact satsAny_congr ((tList_tok_iff.mp h3).imp fun x y hx => ih x y hx r)

/-- Whenever the translator completes normally, the rewritten filter selects
exactly the rows the original filter selects (reading `$like` with its
intended case-insensitive meaning). -/
theorem translateP_sats :
    ∀ (n : Nat) (f f' : Pred), translateP n f = tok f' → ∀ r, sats r f' = sats r f := by
  intro n
  induction n with
  | zero => intro f f' h; simp [translateP, tok] at h
  | succ n ih =>
    intro f f' h r
    obtain ⟨a, o, nc, fs⟩ := f
    cases nc with
    | some q =>
      exact absurd h (translateP_not_no_tok (n + 1) (.mk a o (some q) fs)
        (by simp [Pred.getNot]) f')
    | none =>
      simp only [translateP, Pred.getAnd, Pred.getOr, Pred.getNot, Pred.getFields] at h
      obtain ⟨a', ha, h⟩ := tbind_tok_iff.mp h
      obtain ⟨o', ho, h⟩ := tbind_tok_iff.mp h
      obtain ⟨n', hn', h⟩ := tbind_tok_iff.mp h
      obtain ⟨fs', hfs, h⟩ := tbind_tok_iff.mp h
      simp only [tok, Option.some.injEq, Except.ok.injEq] at h hn'
      subst h
      subst hn'
      have hand := satsAndO_congr (r := r) n ih ha
      have hor := satsOrO_congr (r := r) n ih ho
      have hfields := fieldsAll_congr (r := r)
        ((tList_tok_iff.mp hfs).imp fun kv kv' hx => mapField_sat hx)
      simp only [sats, hand, hor, hfields]

/-! Structural facts about the tree predicates used by the compound-leaf
analysis. -/

theorem forall2_mem_left {α β : Type} {R : α → β → Prop} :
    ∀ {l : List α} {l' : List β}, List.Forall₂ R l l' →
      ∀ x ∈ l, ∃ y ∈ l', R x y := by
  intro l l' h
  induction h with
  | nil => intro x hx; cases hx
  | cons h1 _ ih =>
    intro x hx
    rcases List.mem_cons.mp hx with rfl | hx'
    · exact ⟨_, by simp, h1⟩
    · obtain ⟨y, hy, hr⟩ := ih x hx'
      exact ⟨y, by simp [hy], hr⟩

theorem nnList_mem : ∀ {l : List Pred}, nnList l = true → ∀ p ∈ l, noNot p = true := by
  intro l
  induction l with
  | nil => intro _ p hp; cases hp
  | cons q l ih =>
    intro h p hp
    simp only [nnList, Bool.and_eq_true] at h
    rcases List.mem_cons.mp hp with rfl | hp'
    · exact h.1
    · exact ih h.2 p hp'

theorem wtList_mem : ∀ {l : List Pred}, wtList l = true → ∀ p ∈ l, wellTyped p = true := by
  intro l
  induction l with
  | nil => intro _ p hp; cases hp
  | cons q l ih =>
    intro h p hp
    simp only [wtList, Bool.and_eq_true] at h
    rcases List.mem_cons.mp hp with rfl | hp'
    · exact h.1
    · exact ih h.2 p hp'

theorem psizeL_mem : ∀ {l : List Pred}, ∀ p ∈ l, psize p ≤ psizeL l := by
  intro l
  induction l with
  | nil => intro p hp; cases hp
  | cons q l ih =>
    intro p hp
    rcases List.mem_cons.mp hp with rfl | hp'
    · simp [psizeL]
    · have := ih p hp'
      simp only [psizeL]
      omega

theorem hcList_exists : ∀ {l : List Pred}, hcList l = true →
    ∃ p ∈ l, hasCompound p = true := by
  intro l
  induction l with
  | nil => intro h; simp [hcList] at h
  | cons q l ih =>
    intro h
    simp only [hcList, Bool.or_eq_true] at h
    rcases h with h | h
    · exact ⟨q, by simp, h⟩
    · obtain ⟨p, hp, hc⟩ := ih h
      exact ⟨p, by simp [hp], hc⟩

theorem hcList_false_of_forall2 {R : Pred → Pred → Prop}
    (hR : ∀ x y, R x y → hasCompound y = false) :
    ∀ {l l' : List Pred}, List.Forall₂ R l l' → hcList l' = false := by
  intro l l' h
  induction h with
  | nil => rfl
  | cons h1 _ ih => simp [hcList, hR _ _ h1, ih]

theorem wtList_of_forall2 {R : Pred → Pred → Prop}
    (hR : ∀ x y, R x y → wellTyped x = true → wellTyped y = true) :
    ∀ {l l' : List Pred}, List.Forall₂ R l l' → wtList l = true → wtList l' = true := by
  intro l l' h
  induction h with
  | nil => intro _; rfl
  | cons h1 _ ih =>
    intro hw
    simp only [wtList, Bool.and_eq_true] at hw ⊢
    exact ⟨hR _ _ h1 hw.1, ih hw.2⟩

theorem forall2_mem_right {α β : Type} {R : α → β → Prop} :
    ∀ {l : List α} {l' : List β}, List.Forall₂ R l l' →
      ∀ y ∈ l', ∃ x ∈ l, R x y := by
  intro l l' h
  induction h with
  | nil => intro y hy; cases hy
  | cons h1 _ ih =>
    intro y hy
    rcases List.mem_cons.mp hy with rfl | hy'
    · exact ⟨_, by simp, h1⟩
    · obtain ⟨x, hx, hr⟩ := ih y hy'
      exact ⟨x, by simp [hx], hr⟩

theorem hcList_of_mem : ∀ {l : List Pred} {p : Pred}, p ∈ l →
    hasCompound p = true → hcList l = true := by
  intro l
  induction l with
  | nil => intro p hp; cases hp
  | cons q l ih =>
    intro p hp hc
    simp only [hcList, Bool.or_eq_true]
    rcases List.mem_cons.mp hp with rfl | hp'
    · exact .inl hc
    · exact .inr (ih hp' hc)

/-- A filter containing a compound leaf anywhere never translates
successfully: the compound check throws before the tree can be returned. -/
theorem trans_compound_no_tok :
    ∀ (n : Nat) (f : Pred), hasCompound f = true → ∀ f', translateP n f ≠ tok f' := by
  intro n
  induction n with
  | zero => intro f _ f' h; simp [translateP, tok] at h
  | succ n ih =>
    intro f hc f' h
    obtain ⟨a, o, nc, fs⟩ := f
    cases nc with
    | some q =>
      exact translateP_not_no_tok (n + 1) (.mk a o (some q) fs)
        (by simp [Pred.getNot]) f' h
    | none =>
      simp only [translateP, Pred.getAnd, Pred.getOr, Pred.getNot,
        Pred.getFields] at h
      obtain ⟨a', ha, h⟩ := tbind_tok_iff.mp h
      obtain ⟨o', ho, h⟩ := tbind_tok_iff.mp h
      obtain ⟨n', hn', h⟩ := tbind_tok_iff.mp h
      obtain ⟨fs', hfs, h⟩ := tbind_tok_iff.mp h
      simp only [hasCompound, Bool.or_eq_true] at hc
      rcases hc with ((hca | hco) | hnc) | hany
      · cases a with
        | none => simp [hcO] at hca
        | some l =>
          simp only [hcO] at hca
          obtain ⟨p, hp, hcp⟩ := hcList_exists hca
          rcases topt_tok_iff.mp ha with ⟨hl, -⟩ | ⟨l0, l', hl0, -, hlist⟩
          · cases hl
          · obtain rfl : l0 = l := by injection hl0.symm
            obtain ⟨y, -, htr⟩ := forall2_mem_left (tList_tok_iff.mp hlist) p hp
            exact ih p hcp y htr
      · cases o with
        | none => simp [hcO] at hco
        | some l =>
          simp only [hcO] at hco
          obtain ⟨p, hp, hcp⟩ := hcList_exists hco
          rcases topt_tok_iff.mp ho with ⟨hl, -⟩ | ⟨l0, l', hl0, -, hlist⟩
          · cases hl
          · obtain rfl : l0 = l := by injection hl0.symm
            obtain ⟨y, -, htr⟩ := forall2_mem_left (tList_tok_iff.mp hlist) p hp
            exact ih p hcp y htr
      · simp [hcNot] at hnc
      · obtain ⟨kv, hkv, hckv⟩ := List.any_eq_true.mp hany
        obtain ⟨kv', -, hmap⟩ := forall2_mem_left (tList_tok_iff.mp hfs) kv hkv
        exact mapField_compound_no_tok hckv hmap

/-- A successfully translated tree contains no compound leaf. -/
theorem trans_tok_noCompound :
    ∀ (n : Nat) (f f' : Pred), translateP n f = tok f' → hasCompound f' = false := by
  intro n
  induction n with
  | zero => intro f f' h; simp [translateP, tok] at h
  | succ n ih =>
    intro f f' h
    obtain ⟨a, o, nc, fs⟩ := f
    cases nc with
    | some q =>
      exact absurd h (translateP_not_no_tok (n + 1) (.mk a o (some q) fs)
        (by simp [Pred.getNot]) f')
    | none =>
      simp only [translateP, Pred.getAnd, Pred.getOr, Pred.getNot,
        Pred.getFields] at h
      obtain ⟨a', ha, h⟩ := tbind_tok_iff.mp h
      obtain ⟨o', ho, h⟩ := tbind_tok_iff.mp h
      obtain ⟨n', hn', h⟩ := tbind_tok_iff.mp h
      obtain ⟨fs', hfs, h⟩ := tbind_tok_iff.mp h
      simp only [tok, Option.some.injEq, Except.ok.injEq] at h hn'
      subst h
      subst hn'
      have hcaf : hcO a' = false := by
        rcases topt_tok_iff.mp ha with ⟨-, ha'⟩ | ⟨l, l', -, ha', hlist⟩
        · rw [ha']; rfl
        · rw [ha']
          simp only [hcO]
          exact hcList_false_of_forall2 (fun x y hxy => ih x y hxy)
            (tList_tok_iff.mp hlist)
      have hcof : hcO o' = false := by
        rcases topt_tok_iff.mp ho with ⟨-, ho'⟩ | ⟨l, l', -, ho', hlist⟩
        · rw [ho']; rfl
        · rw [ho']
          simp only [hcO]
          exact hcList_false_of_forall2 (fun x y hxy => ih x y hxy)
            (tList_tok_iff.mp hlist)
      have hfieldsf : (fs'.any fun kv => hasCompoundL kv.2) = false := by
        rw [List.any_eq_false]
        intro kv' hkv'
        obtain ⟨kv, -, hmap⟩ := forall2_mem_right (tList_tok_iff.mp hfs) kv' hkv'
        simp [mapField_tok_noCompound hmap]
      simp [hasCompound, hcNot, hcaf, hcof, hfieldsf]

/-- Translation preserves the well-typedness of `$like` leaves. -/
theorem trans_tok_wt :
    ∀ (n : Nat) (f f' : Pred), wellTyped f = true → translateP n f = tok f' →
      wellTyped f' = true := by
  intro n
  induction n with
  | zero => intro f f' _ h; simp [translateP, tok] at h
  | succ n ih =>
    intro f f' hw h
    obtain ⟨a, o, nc, fs⟩ := f
    cases nc with
    | some q =>
      exact absurd h (translateP_not_no_tok (n + 1) (.mk a o (some q) fs)
        (by simp [Pred.getNot]) f')
    | none =>
      simp only [wellTyped, Bool.and_eq_true] at hw
      obtain ⟨⟨⟨hwa, hwo⟩, -⟩, -⟩ := hw
      simp only [translateP, Pred.getAnd, Pred.getOr, Pred.getNot,
        Pred.getFields] at h
      obtain ⟨a', ha, h⟩ := tbind_tok_iff.mp h
      obtain ⟨o', ho, h⟩ := tbind_tok_iff.mp h
      obtain ⟨n', hn', h⟩ := tbind_tok_iff.mp h
      obtain ⟨fs', hfs, h⟩ := tbind_tok_iff.mp h
      simp only [tok, Option.some.injEq, Except.ok.injEq] at h hn'
      subst h
      subst hn'
      have hwa' : wtO a' = true := by
        rcases topt_tok_iff.mp ha with ⟨-, ha'⟩ | ⟨l, l', hl, ha', hlist⟩
        · rw [ha']; rfl
        · rw [ha']
          simp only [wtO]
          refine wtList_of_forall2 (fun x y hxy hx => ih x y hx hxy)
            (tList_tok_iff.mp hlist) ?_
          rw [hl] at hwa
          exact hwa
      have hwo' : wtO o' = true := by
        rcases topt_tok_iff.mp ho with ⟨-, ho'⟩ | ⟨l, l', hl, ho', hlist⟩
        · rw [ho']; rfl
        · rw [ho']
          simp only [wtO]
          refine wtList_of_forall2 (fun x y hxy hx => ih x y hx hxy)
            (tList_tok_iff.mp hlist) ?_
          rw [hl] at hwo
          exact hwo
      have hwf' : (fs'.all fun kv => wtLeaf kv.2) = true := by
        rw [List.all_eq_true]
        intro kv' hkv'
        obtain ⟨kv, -, hmap⟩ := forall2_mem_right (tList_tok_iff.mp hfs) kv' hkv'
        exact mapField_tok_wt hmap
      simp [wellTyped, wtNot, hwa', hwo', hwf']

/-- On a `$not`-free filter, fuel exceeding the nesting size is enough: the
translator either returns or throws, it does not exhaust the fuel. -/
theorem trans_fuel_ne_none :
    ∀ (n : Nat) (f : Pred), noNot f = true → psize f < n → translateP n f ≠ none := by
  intro n
  induction n with
  | zero => intro f _ hs; exact absurd hs (Nat.not_lt_zero _)
  | succ n ih =>
    intro f hn hs h
    obtain ⟨a, o, nc, fs⟩ := f
    simp only [noNot, Bool.and_eq_true, Option.isNone_iff_eq_none] at hn
    obtain ⟨⟨hna, hno⟩, hnc⟩ := hn
    subst hnc
    simp only [psize, psizeNot] at hs
    simp only [translateP, Pred.getAnd, Pred.getOr, Pred.getNot,
      Pred.getFields] at h
    rcases tbind_none_iff.mp h with h1 | ⟨a', ha, h2⟩
    · refine topt_ne_none (fun l hl => ?_) h1
      refine tList_ne_none (fun p hp => ?_)
      have hple := psizeL_mem p hp
      have hlt : psize p < n := by
        rw [hl] at hs
        simp only [psizeO] at hs
        omega
      refine ih p (nnList_mem ?_ p hp) hlt
      rw [hl] at hna
      exact hna
    · rcases tbind_none_iff.mp h2 with h3 | ⟨o', ho, h4⟩
      · refine topt_ne_none (fun l hl => ?_) h3
        refine tList_ne_none (fun p hp => ?_)
        have hple := psizeL_mem p hp
        have hlt : psize p < n := by
          rw [hl] at hs
          simp only [psizeO] at hs
          omega
        refine ih p (nnList_mem ?_ p hp) hlt
        rw [hl] at hno
        exact hno
      · rcases tbind_none_iff.mp h4 with h5 | ⟨n', hn', h6⟩
        · simp [tok] at h5
        · rcases tbind_none_iff.mp h6 with h7 | ⟨fs', hfs, h8⟩
          · exact tList_ne_none (fun kv _ => mapField_ne_none) h7
          · simp [tok] at h8

/-- Every error the translator throws on a well-typed filter is the
too-complex error: the only other throw site is the `$like` TypeError, which
well-typedness rules out. -/
theorem trans_err_invalid :
    ∀ (n : Nat) (f : Pred) (e : TErr), wellTyped f = true →
      translateP n f = terr e → ∃ k0, e = .invalid k0 := by
  intro n
  induction n with
  | zero => intro f e _ h; simp [translateP, terr] at h
  | succ n ih =>
    intro f e hw h
    obtain ⟨a, o, nc, fs⟩ := f
    simp only [wellTyped, Bool.and_eq_true] at hw
    obtain ⟨⟨⟨hwa, hwo⟩, hwn⟩, hwf⟩ := hw
    simp only [translateP, Pred.getAnd, Pred.getOr, Pred.getNot,
      Pred.getFields] at h
    rcases tbind_terr_iff.mp h with h1 | ⟨a', ha, h2⟩
    · obtain ⟨l, hl, hterr⟩ := topt_terr h1
      obtain ⟨p, hp, hterrp⟩ := tList_terr hterr
      refine ih p e (wtList_mem ?_ p hp) hterrp
      rw [hl] at hwa
      exact hwa
    · rcases tbind_terr_iff.mp h2 with h3 | ⟨o', ho, h4⟩
      · obtain ⟨l, hl, hterr⟩ := topt_terr h3
        obtain ⟨p, hp, hterrp⟩ := tList_terr hterr
        refine ih p e (wtList_mem ?_ p hp) hterrp
        rw [hl] at hwo
        exact hwo
      · rcases tbind_terr_iff.mp h4 with h5 | ⟨n', hn', h6⟩
        · cases nc with
          | none => simp [tok, terr] at h5
          | some q =>
            rcases tbind_terr_iff.mp h5 with h7 | ⟨x, -, h8⟩
            · have hwa' : wtO a' = true := by
                rcases topt_tok_iff.mp ha with ⟨-, ha'⟩ | ⟨l, l', hl, ha', hlist⟩
                · rw [ha']; rfl
                · rw [ha']
                  simp only [wtO]
                  refine wtList_of_forall2
                    (fun x y hxy hx => trans_tok_wt n x y hx hxy)
                    (tList_tok_iff.mp hlist) ?_
                  rw [hl] at hwa
                  exact hwa
              have hwo' : wtO o' = true := by
                rcases topt_tok_iff.mp ho with ⟨-, ho'⟩ | ⟨l, l', hl, ho', hlist⟩
                · rw [ho']; rfl
                · rw [ho']
                  simp only [wtO]
                  refine wtList_of_forall2
                    (fun x y hxy hx => trans_tok_wt n x y hx hxy)
                    (tList_tok_iff.mp hlist) ?_
                  rw [hl] at hwo
                  exact hwo
              refine ih (.mk a' o' (some q) fs) e ?_ h7
              simp [wellTyped, wtNot, hwa', hwo', hwf]
              simpa [wtNot] using hwn
            · simp [tok, terr] at h8
        · rcases tbind_terr_iff.mp h6 with h7 | ⟨fs', -, h8⟩
          · obtain ⟨kv, hkv, hm⟩ := tList_terr h7
            have hwkv : wtLeaf kv.2 = true := List.all_eq_true.mp hwf kv hkv
            exact mapField_terr_wt hwkv hm
          · simp [tok, terr] at h8

/-- A thrown too-complex error always comes from a compound leaf of the
original filter. -/
theorem trans_invalid_has :
    ∀ (n : Nat) (f : Pred) (k0 : String),
      translateP n f = terr (.invalid k0) → hasCompound f = true := by
  intro n
  induction n with
  | zero => intro f k0 h; simp [translateP, terr] at h
  | succ n ih =>
    intro f k0 h
    obtain ⟨a, o, nc, fs⟩ := f
    simp only [translateP, Pred.getAnd, Pred.getOr, Pred.getNot,
      Pred.getFields] at h
    simp only [hasCompound, Bool.or_eq_true]
    rcases tbind_terr_iff.mp h with h1 | ⟨a', ha, h2⟩
    · obtain ⟨l, hl, hterr⟩ := topt_terr h1
      obtain ⟨p, hp, hterrp⟩ := tList_terr hterr
      refine .inl (.inl (.inl ?_))
      rw [hl]
      simp only [hcO]
      exact hcList_of_mem hp (ih p k0 hterrp)
    · rcases tbind_terr_iff.mp h2 with h3 | ⟨o', ho, h4⟩
      · obtain ⟨l, hl, hterr⟩ := topt_terr h3
        obtain ⟨p, hp, hterrp⟩ := tList_terr hterr
        refine .inl (.inl (.inr ?_))
        rw [hl]
        simp only [hcO]
        exact hcList_of_mem hp (ih p k0 hterrp)
      · rcases tbind_terr_iff.mp h4 with h5 | ⟨n', hn', h6⟩
        · cases nc with
          | none => simp [tok, terr] at h5
          | some q =>
            rcases tbind_terr_iff.mp h5 with h7 | ⟨x, -, h8⟩
            · have hrec := ih (.mk a' o' (some q) fs) k0 h7
              have hcaf : hcO a' = false := by
                rcases topt_tok_iff.mp ha with ⟨-, ha'⟩ | ⟨l, l', -, ha', hlist⟩
                · rw [ha']; rfl
                · rw [ha']
                  simp only [hcO]
                  exact hcList_false_of_forall2
                    (fun x y hxy => trans_tok_noCompound n x y hxy)
                    (tList_tok_iff.mp hlist)
              have hcof : hcO o' = false := by
                rcases topt_tok_iff.mp ho with ⟨-, ho'⟩ | ⟨l, l', -, ho', hlist⟩
                · rw [ho']; rfl
                · rw [ho']
                  simp only [hcO]
                  exact hcList_false_of_forall2
                    (fun x y hxy => trans_tok_noCompound n x y hxy)
                    (tList_tok_iff.mp hlist)
              simp only [hasCompound, Bool.or_eq_true, hcaf, hcof] at hrec
              rcases hrec with ((hf | hf) | hq) | hany
              · cases hf
              · cases hf
              · exact .inl (.inr (by simpa [hcNot] using hq))
              · exact .inr hany
            · simp [tok, terr] at h8
        · rcases tbind_terr_iff.mp h6 with h7 | ⟨fs', -, h8⟩
          · obtain ⟨kv, hkv, hm⟩ := tList_terr h7
            refine .inr (List.any_eq_true.mpr ⟨kv, hkv, ?_⟩)
            exact mapField_terr_invalid hm
          · simp [tok, terr] at h8

/-! Claim theorems. -/

/-- C1: for every user filter F and constraint map C on which the translator
returns, the result is nothing when both are absent, is C verbatim when only
C is present, and is the separate conjunction `{$and: [F', C]}` of the
rewritten filter and the untouched constraint when both are present; and a
row satisfies the returned predicate exactly when it satisfies F and
satisfies C. -/
theorem c1_constraint_isolation (n : Nat) (F C res : Option Pred)
    (h : translateFilter n F C = tok res) :
    (F = none → C = none → res = none) ∧
    (F = none → res = C) ∧
    (∀ f c, F = some f → C = some c →
      ∃ f', translateP n f = tok f' ∧ res = some (andPred f' c)) ∧
    (∀ r, satsO r res = (satsO r F && satsO r C)) := by
  cases F with
  | none =>
    simp only [translateFilter, tok, Option.some.injEq, Except.ok.injEq] at h
    subst h
    refine ⟨fun _ hC => hC, fun _ => rfl, ?_, ?_⟩
    · intro f c hf hc
      exact nomatch hf
    · intro r
      cases C <;> simp [satsO]
  | some f =>
    simp only [translateFilter] at h
    obtain ⟨f', hf', h2⟩ := tbind_tok_iff.mp h
    have hpres := translateP_sats n f f' hf'
    cases C with
    | none =>
      simp only [tok, Option.some.injEq, Except.ok.injEq] at h2
      subst h2
      refine ⟨?_, ?_, ?_, ?_⟩
      · intro hF
        exact nomatch hF
      · intro hF
        exact nomatch hF
      · intro f0 c hf0 hc
        exact nomatch hc
      · intro r
        simp [satsO, hpres r]
    | some c =>
      simp only [tok, Option.some.injEq, Except.ok.injEq] at h2
      subst h2
      refine ⟨?_, ?_, ?_, ?_⟩
      · intro hF
        exact nomatch hF
      · intro hF
        exact nomatch hF
      · intro f0 c0 hf0 hc0
        obtain rfl : f0 = f := by injection hf0.symm
        obtain rfl : c0 = c := by injection hc0.symm
        exact ⟨f', hf', rfl⟩
      · intro r
        simp [satsO, andPred, sats, satsAndO, satsAll, satsOrO, satsNotO,
          hpres r, Bool.and_assoc]

theorem c1_witness :
    satsO w1Row (some (andPred
      (.mk none none none [("name", .sqlWhere "name" "wil%")]) w1Constraint)) =
      (satsO w1Row (some w1Filter) && satsO w1Row (some w1Constraint)) :=
  (c1_constraint_isolation 2 (some w1Filter) (some w1Constraint)
    (some (andPred (.mk none none none [("name", .sqlWhere "name" "wil%")])
      w1Constraint)) (by rfl)).2.2.2 w1Row

/-- C3: refuted as written — the source line `filter.$not = translateFilter(filter)`
re-invokes translation on the whole filter rather than on the `$not` child,
so on the concrete filter `{$not: {name: "x"}}` the translator exhausts every
fuel bound: the recursion never terminates (a stack overflow at run time)
instead of rewriting the child and terminating. -/
theorem c3_not_diverges : divergesOn notFilter := by
  intro n
  induction n with
  | zero => rfl
  | succ n ih =>
    have hshape : translateP (n + 1) notFilter =
        tbind (tbind (translateP n notFilter) (fun x => tok (some x)))
          (fun n' => tbind (tList mapFieldKV notFilter.getFields) fun fs' =>
            tok (Pred.mk none none n' fs')) := rfl
    rw [hshape, ih]
    rfl

/-- C2 counterexample: with id argument 1 and constraint map `{id: 2}`, the
spread `{id, ...constraint}` lets the constraint overwrite the id argument,
so the stored row with identifier 2 — different from the id argument —
matches the selection predicate and is in fact deleted by the delete
operation. -/
theorem c2_counterexample :
    rowMatchesWhere (Scalar.num 1) [("id", Scalar.num 2)] c2row = true ∧
    rowGet c2row "id" ≠ Scalar.num 1 ∧
    deleteOp (Scalar.num 1) (some [("id", Scalar.num 2)]) [c2row] = (1, []) := by
  refine ⟨rfl, by decide, rfl⟩

/-- C2 (amended): for every constraint map without an `id` key, the
row-selection predicate used by get, update and delete selects a row exactly
when its identifier equals the id argument and the row satisfies every field
of the constraint map; when the constraint map does contain an `id` key, its
value replaces the id argument in the selection predicate. -/
theorem c2_where_selection (idv : Scalar) (c : CMap) (r : Row) :
    (lookupF "id" c = none →
      rowMatchesWhere idv c r = ((rowGet r "id" == idv) && satisfiesCMap r c)) ∧
    (∀ v, lookupF "id" c = some v →
      rowMatchesWhere idv c r = ((rowGet r "id" == v) && satisfiesCMap r c)) := by
  refine ⟨fun h => ?_, fun v h => ?_⟩ <;> simp only [rowMatchesWhere, h]

theorem c2_witness :
    rowMatchesWhere (Scalar.num 1) [("groupId", Scalar.num 2)] c2row =
      ((rowGet c2row "id" == Scalar.num 1) &&
        satisfiesCMap c2row [("groupId", Scalar.num 2)]) :=
  (c2_where_selection (Scalar.num 1) [("groupId", Scalar.num 2)] c2row).1 rfl

/-- C4: in create and update, when the payload attributes fail the constraint
point-wise test, the call throws `constraint violation` before any storage
call: no inserted or updated state is produced, so the stored data is
untouched. -/
theorem c4_constraint_violation (url : String) (idv : Scalar) (payload : Row)
    (c : CMap) (db : List Row) (newId : Int)
    (h : filtrTest payload c = false) :
    createOp url payload (some c) db newId = .error "constraint violation" ∧
    updateOp url idv payload (some c) db = .error "constraint violation" := by
  constructor
  · simp [createOp, h]
  · simp [updateOp, h]

theorem c4_witness :
    createOp "/users" [("groupId", Scalar.num 1)] (some [("groupId", Scalar.num 2)])
      [] 5 = .error "constraint violation" ∧
    updateOp "/users" (Scalar.num 1) [("groupId", Scalar.num 1)]
      (some [("groupId", Scalar.num 2)]) [] = .error "constraint violation" :=
  c4_constraint_violation "/users" (Scalar.num 1) [("groupId", Scalar.num 1)]
    [("groupId", Scalar.num 2)] [] 5 rfl

/-- C5 counterexample: with id argument 1 and constraint map `{id: 2}`, a row
with identifier 1 exists and fails the constraint, yet get does not return
the not-found sentinel: the `{id, ...constraint}` merge selects the row with
identifier 2 and returns its resource. -/
theorem c5_counterexample :
    rowGet [("id", Scalar.num 1), ("groupId", Scalar.num 1)] "id" = Scalar.num 1 ∧
    satisfiesCMap [("id", Scalar.num 1), ("groupId", Scalar.num 1)]
      [("id", Scalar.num 2)] = false ∧
    getOp "/users" (Scalar.num 1) (some [("id", Scalar.num 2)]) c5db =
      some ⟨"/users/1", [("id", Scalar.num 2), ("groupId", Scalar.num 1)]⟩ := by
  refine ⟨rfl, rfl, rfl⟩

/-- C5 (amended): for every constraint map without an `id` key, get returns
the not-found sentinel `null` whenever no stored row both has the given
identifier and satisfies the constraint — covering, with one and the same
sentinel value, both the case of no row with that id and the case of a row
with that id failing the constraint, which therefore remain indistinguishable
to the caller. -/
theorem c5_not_found (url : String) (idv : Scalar) (c : CMap) (db : List Row)
    (hid : lookupF "id" c = none)
    (h : ∀ r ∈ db, rowGet r "id" = idv → satisfiesCMap r c = false) :
    getOp url idv (some c) db = none := by
  have hall : ∀ r ∈ db, ¬(rowMatchesWhere idv c r = true) := by
    intro r hr hm
    simp only [rowMatchesWhere, hid, Bool.and_eq_true] at hm
    have hide : rowGet r "id" = idv := by simpa [beq_iff_eq] using hm.1
    have hflat := h r hr hide
    rw [hflat] at hm
    exact absurd hm.2 (by simp)
  simp only [getOp, Option.getD]
  rw [List.find?_eq_none.mpr hall]
  rfl

theorem c5_witness :
    getOp "/users" (Scalar.num 1) (some [("groupId", Scalar.num 2)]) c5db = none :=
  c5_not_found "/users" (Scalar.num 1) [("groupId", Scalar.num 2)] c5db rfl
    (by decide)

/-- C7: refuted as written — the source builds the create self-link template
as `url + '/<%=id>'`, missing the `%` before the `>`, so the renderer finds no
complete `<%= ... %>` pair and the returned resource's self-link is the
literal string `/users/<%=id>` rather than `/users/7`; the correctly spelled
template from the list operation would have rendered `/users/7`. -/
theorem c7_template_never_substituted :
    createOp "/users" [("name", Scalar.str "Fred")] none [] 7 =
      .ok ([[("name", Scalar.str "Fred"), ("id", Scalar.num 7)]],
        ⟨"/users/<%=id>", [("name", Scalar.str "Fred"), ("id", Scalar.num 7)]⟩) ∧
    renderTemplate [("name", Scalar.str "Fred"), ("id", Scalar.num 7)]
      "/users/<%=id%>" = "/users/7" ∧
    "/users/<%=id>" ≠ "/users/7" := by
  refine ⟨rfl, rfl, by decide⟩

/-- C8: the projection sent to the storage engine is absent when no sparse
fieldset is specified, is the fieldset unchanged when it already contains
`id`, and is the fieldset with `id` appended — as a set, P with `id` added —
when it does not. -/
theorem c8_projection_includes_id (P : List String) :
    buildAttributes none = none ∧
    ("id" ∈ P → buildAttributes (some P) = some P) ∧
    ("id" ∉ P →
      buildAttributes (some P) = some (P ++ ["id"]) ∧
      ∀ x, x ∈ P ++ ["id"] ↔ (x ∈ P ∨ x = "id")) := by
  refine ⟨rfl, fun h => ?_, fun h => ⟨?_, fun x => by simp⟩⟩
  · simp [buildAttributes, h]
  · simp [buildAttributes, h]

theorem c8_witness :
    buildAttributes (some ["name"]) = some (["name"] ++ ["id"]) :=
  ((c8_projection_includes_id ["name"]).2.2 (by decide)).1

/-- C9 counterexample: the leaf `{name: {$like: ""}}` has the `$like` form,
but the empty pattern is falsy in JS, so the `if (value.$like)` guard skips
the rewrite and the leaf is returned untouched rather than as a lower-cased
column comparison. -/
theorem c9_counterexample :
    translateP 1 c9pred = tok c9pred ∧
    c9pred.getFields ≠ [("name", LeafVal.sqlWhere "name" "")] := by
  refine ⟨rfl, by decide⟩

/-- C9 (amended): every leaf `{field: {$like: pattern}}` with a non-empty
(truthy) pattern is rewritten by the translator into the comparison of the
lower-cased field column against the lower-cased pattern under the like
operator, while leaves with other single operators and plain scalar leaves
are passed through unrewritten; a leaf whose `$like` pattern is the empty
string is also passed through, because the empty string is falsy. -/
theorem c9_like_rewrite (k s : String) (hs : s ≠ "") (n : Nat) :
    mapField k (.opObj [("$like", .str s)]) = tok (k, .sqlWhere k (lowerStr s)) ∧
    (∀ op v, op ≠ "$like" →
      mapField k (.opObj [(op, v)]) = tok (k, .opObj [(op, v)])) ∧
    (∀ v, mapField k (.scalar v) = tok (k, .scalar v)) ∧
    translateP (n + 1) (.mk none none none [(k, .opObj [("$like", .str s)])]) =
      tok (.mk none none none [(k, .sqlWhere k (lowerStr s))]) := by
  have htr : truthy (.str s) = true := by
    simp [truthy, hs]
  refine ⟨?_, ?_, ?_, ?_⟩
  · simp [mapField, lookupF, htr]
  · intro op v hop
    simp [mapField, lookupF, beq_eq_false_iff_ne.mpr hop]
  · intro v
    simp [mapField]
  · have h1 : mapFieldKV (k, .opObj [("$like", .str s)]) =
        tok (k, .sqlWhere k (lowerStr s)) := by
      simp [mapFieldKV, mapField, lookupF, htr]
    simp only [translateP, Pred.getAnd, Pred.getOr, Pred.getNot, Pred.getFields,
      topt, tList, h1]
    rfl

theorem c9_witness :
    mapField "name" (.opObj [("$like", .str "Wil%")]) =
      tok ("name", .sqlWhere "name" (lowerStr "Wil%")) ∧
    translateP 1 (.mk none none none [("name", .opObj [("$like", .str "Wil%")])]) =
      tok (.mk none none none [("name", .sqlWhere "name" (lowerStr "Wil%"))]) :=
  ⟨(c9_like_rewrite "name" "Wil%" (by decide) 0).1,
   (c9_like_rewrite "name" "Wil%" (by decide) 0).2.2.2⟩

/-- C10 counterexample: for the filter `{a: 5}` the translation changes
nothing — no combinator children and no `$like` leaves — so the tree the
caller holds after a list call is equal to the value it held before, and
with no constraint the returned predicate is that same unchanged tree. -/
theorem c10_counterexample :
    translateP 1 c10pred = tok c10pred ∧
    translateFilter 1 (some c10pred) none = tok (some c10pred) := by
  refine ⟨rfl, rfl⟩

/-- C10 (amended): translation rewrites the tree the caller handed in and,
when no constraint is given, returns that rewritten tree as the predicate;
the caller's filter value after the call therefore differs from its pre-call
value exactly when a rewrite applies — for example a `$like` leaf with a
non-empty pattern changes the tree, while a filter whose keys are all plain
scalar leaves is returned unchanged, equal to its pre-call value. -/
theorem c10_mutation_value (n : Nat) :
    (∀ f, scalarFieldsOnly f = true → translateP (n + 1) f = tok f) ∧
    (∀ k s, s ≠ "" →
      translateP 1 (.mk none none none [(k, .opObj [("$like", .str s)])]) =
        tok (.mk none none none [(k, .sqlWhere k (lowerStr s))]) ∧
      (Pred.mk none none none [(k, LeafVal.sqlWhere k (lowerStr s))]).getFields ≠
        (Pred.mk none none none [(k, LeafVal.opObj [("$like", .str s)])]).getFields) ∧
    (∀ f f', translateP n f = tok f' →
      translateFilter n (some f) none = tok (some f')) := by
  refine ⟨?_, ?_, ?_⟩
  · intro f hf
    obtain ⟨a, o, nc, fs⟩ := f
    simp only [scalarFieldsOnly, Bool.and_eq_true, Option.isNone_iff_eq_none] at hf
    obtain ⟨⟨⟨ha, ho⟩, hnc⟩, hfs⟩ := hf
    subst ha
    subst ho
    subst hnc
    have hfields : tList mapFieldKV fs = tok fs := by
      induction fs with
      | nil => rfl
      | cons kv rest ih =>
        rw [List.all_cons, Bool.and_eq_true] at hfs
        have hkv : mapFieldKV kv = tok kv := by
          obtain ⟨k, v⟩ := kv
          cases v with
          | scalar sv => rfl
          | opObj ops => simp at hfs
          | sqlWhere c p => simp at hfs
        simp only [tList, hkv]
        rw [ih hfs.2]
        rfl
    simp only [translateP, Pred.getAnd, Pred.getOr, Pred.getNot, Pred.getFields,
      topt, hfields]
    rfl
  · intro k s hs
    have htr : truthy (.str s) = true := by simp [truthy, hs]
    have h1 : mapFieldKV (k, .opObj [("$like", .str s)]) =
        tok (k, .sqlWhere k (lowerStr s)) := by
      simp [mapFieldKV, mapField, lookupF, htr]
    constructor
    · simp only [translateP, Pred.getAnd, Pred.getOr, Pred.getNot, Pred.getFields,
        topt, tList, h1]
      rfl
    · simp [Pred.getFields]
  · intro f f' h
    simp only [translateFilter, h]
    rfl

theorem c10_witness :
    translateP 1 c10pred = tok c10pred ∧
    (Pred.mk none none none [("a", LeafVal.sqlWhere "a" (lowerStr "B%"))]).getFields ≠
      (Pred.mk none none none [("a", LeafVal.opObj [("$like", Scalar.str "B%")])]).getFields :=
  ⟨(c10_mutation_value 0).1 c10pred rfl,
   ((c10_mutation_value 0).2.1 "a" "B%" (by decide)).2⟩

/-- C6 counterexample: the filter `{$not: {a: 1}, b: {$x: 1, $y: 2}}`
contains a leaf with two operator keys, yet no InvalidFilterError is ever
raised: the `$not` handling runs first and diverges (for every fuel bound the
translator is still running), so the compound-leaf check is never reached. -/
theorem c6_counterexample : divergesOn c6pred ∧ hasCompound c6pred = true := by
  constructor
  · intro n
    induction n with
    | zero => rfl
    | succ n ih =>
      have hshape : translateP (n + 1) c6pred =
          tbind (tbind (translateP n c6pred) (fun x => tok (some x)))
            (fun n' => tbind (tList mapFieldKV c6pred.getFields) fun fs' =>
              tok (Pred.mk none none n' fs')) := rfl
      rw [hshape, ih]
      rfl
  · rfl

/-- C6 (amended): for every `$not`-free filter whose truthy `$like` patterns
are strings, translation raises the InvalidFilterError exactly when the
filter contains a leaf whose operator object has more than one key — with
enough fuel it throws that error when a compound leaf exists, and on no
filter without a compound leaf does it ever raise that error; a filter
containing `$not` never raises it either, since translation diverges first. -/
theorem c6_compound_rejected (f : Pred) :
    (noNot f = true → wellTyped f = true → hasCompound f = true →
      isInvalidRes (translateP (psize f + 1) f) = true) ∧
    (hasCompound f = false → ∀ n, isInvalidRes (translateP n f) = false) := by
  constructor
  · intro hn hw hc
    cases hres : translateP (psize f + 1) f with
    | none => exact absurd hres (trans_fuel_ne_none _ f hn (by omega))
    | some x =>
      cases x with
      | ok f' => exact absurd hres (trans_compound_no_tok _ f hc f')
      | error e =>
        obtain ⟨k0, rfl⟩ := trans_err_invalid _ f e hw hres
        rfl
  · intro hc n
    cases hres : translateP n f with
    | none => rfl
    | some x =>
      cases x with
      | ok f' => rfl
      | error e =>
        cases e with
        | invalid k0 =>
          exact absurd (trans_invalid_has n f k0 hres) (by simp [hc])
        | typeErr => rfl

theorem c6_witness :
    isInvalidRes (translateP (psize (Pred.mk none none none
      [("b", LeafVal.opObj [("$x", Scalar.num 1), ("$y", Scalar.num 2)])]) + 1)
      (Pred.mk none none none
        [("b", LeafVal.opObj [("$x", Scalar.num 1), ("$y", Scalar.num 2)])])) = true ∧
    isInvalidRes (translateP 5 (Pred.mk none none none
      [("name", LeafVal.scalar (Scalar.str "x"))])) = false :=
  ⟨(c6_compound_rejected (Pred.mk none none none
      [("b", LeafVal.opObj [("$x", Scalar.num 1), ("$y", Scalar.num 2)])])).1
      rfl rfl rfl,
   (c6_compound_rejected (Pred.mk none none none
      [("name", LeafVal.scalar (Scalar.str "x"))])).2 rfl 5⟩

end CorrSeq
